import Mathlib

/-!
Shallow embedding of `src/model/mp_layers.py` (stereonet).

Tensors are modelled as lists of rows; a row (feature vector) is a list of
rationals.  Learned submodules (`nn.Linear`, `nn.BatchNorm1d`, the MLPs and
the pluggable `tetra_update`) and the floating-point `pow(-0.5)` are taken
as abstract function parameters, universally quantified in the theorems;
all index bookkeeping (degree counting, scatter-add aggregation, tetra
neighbor resolution, paired reverse edges, row overwriting) is concrete.
A directed edge is a pair `(row, col)`: source `row`, destination `col`,
matching `row, col = edge_index`.
-/

namespace Stereonet

/-- Feature vector: one row of a tensor. -/
abbrev Vec := List ℚ

/-- Elementwise addition of two rows (torch `+` on equal shapes). -/
def vadd (u v : Vec) : Vec := List.zipWith (· + ·) u v

/-- Elementwise subtraction of two rows. -/
def vsub (u v : Vec) : Vec := List.zipWith (· - ·) u v

/-- Scalar multiplication of a row. -/
def smul (c : ℚ) (v : Vec) : Vec := v.map (fun a => c * a)

/-- Elementwise `F.relu`. -/
def relu (v : Vec) : Vec := v.map (fun a => max a 0)

/-- Zero row of width `H`. -/
def vzero (H : ℕ) : Vec := List.replicate H 0

/-- Sum of a list of rows starting from the zero row (the value a
scatter-add accumulator of width `H` reaches). -/
def sumVecs (H : ℕ) (l : List Vec) : Vec := l.foldl vadd (vzero H)

/-- Scatter-add: the aggregation performed by `propagate` with
`aggr='add'`: each `(index, message)` pair adds `message` into row
`index` of the accumulator. -/
def scatterAdd (acc : List Vec) : List (ℕ × Vec) → List Vec
  | [] => acc
  | p :: rest => scatterAdd (acc.set p.1 (vadd (acc.getD p.1 []) p.2)) rest

/-- Row-wise masked assignment `base[ids] = vals` (torch advanced
indexing assignment, pairing `ids` and `vals` rows in order). -/
def overwrite (base : List Vec) : List ℕ → List Vec → List Vec
  | i :: ids, w :: vals => overwrite (base.set i w) ids vals
  | _, _ => base

/-- Destination (`col`) index list of a directed edge list. -/
def colIdx (edges : List (ℕ × ℕ)) : List ℕ := edges.map Prod.snd

/-- Number of occurrences of `v` in an index list (one entry of
`torch_geometric.utils.degree`). -/
def countIdx (l : List ℕ) (v : ℕ) : ℕ := (l.filter (fun a => a == v)).length

/-- The `degree(col, n)` vector: occurrence counts of each node index. -/
def degList (colL : List ℕ) (n : ℕ) : List ℕ :=
  (List.range n).map (fun v => countIdx colL v)

/-- In-degree of node `v`: occurrences of `v` among edge destinations. -/
def indeg (edges : List (ℕ × ℕ)) (v : ℕ) : ℕ := countIdx (colIdx edges) v

/-- Degree Normalizer of `GCNConv.forward` (lines 33-36): in-degree plus
one, `pow(-0.5)` (abstracted as `invSqrt`), then the per-edge product
`deg_inv_sqrt[row] * deg_inv_sqrt[col]`. -/
def gcnNorm (invSqrt : ℕ → ℚ) (edges : List (ℕ × ℕ)) (n : ℕ) : List ℚ :=
  let dis := ((degList (colIdx edges) n).map (fun d => d + 1)).map invSqrt
  edges.map (fun p => dis.getD p.1 0 * dis.getD p.2 0)

/-- The `nonzero()` index list of the parity vector (`tetra_ids`),
in ascending order as torch returns it. -/
def tetraIds (parity : List ℤ) : List ℕ :=
  (List.range parity.length).filter (fun j => parity.getD j 0 != 0)

/-- In-neighbors of node `i` in directed-edge scan order:
`row[col == i]`. -/
def inNeighbors (edges : List (ℕ × ℕ)) (i : ℕ) : List ℕ :=
  (edges.filter (fun p => p.2 == i)).map Prod.fst

/-- The stacked `tetra_nei_ids` tensor before the parity swap:
`[row[col == i] for i in range(n) if i in tetra_ids]`. -/
def tetraNeiIds (edges : List (ℕ × ℕ)) (n : ℕ) (tids : List ℕ) : List (List ℕ) :=
  ((List.range n).filter (fun i => decide (i ∈ tids))).map (fun i => inNeighbors edges i)

/-- The column permutation `[:, [1, 0, 2, 3]]` applied to a 4-wide row. -/
def perm1023 (l : List ℕ) : List ℕ := [l.getD 1 0, l.getD 0 0, l.getD 2 0, l.getD 3 0]

/-- Masked assignment `tetra_nei_ids[ccw_mask] = tetra_nei_ids[ccw_mask][:, [1,0,2,3]]`:
each row whose stereocenter has parity exactly `-1` gets its first two
entries swapped. -/
def applySwap (parity : List ℤ) (tids : List ℕ) (neis : List (List ℕ)) : List (List ℕ) :=
  (tids.zip neis).map (fun p => if parity.getD p.1 0 = -1 then perm1023 p.2 else p.2)

/-- Tetra Neighbor Resolver, index part: per stereocenter (ascending),
its in-neighbor tuple in scan order, first two entries swapped exactly
when the center's parity is `-1`. -/
def tetraResolve (edges : List (ℕ × ℕ)) (n : ℕ) (parity : List ℤ) : List (List ℕ) :=
  applySwap parity (tetraIds parity) (tetraNeiIds edges n (tetraIds parity))

/-- Edge-feature lookup for a `(neighbor, center)` pair: the feature row
at the position where that exact pair occurs in the directed edge list
(`torch.where((a == edge_index.t()).all(dim=1))`; the source assumes the
match is unique). -/
def edgeRep (edges : List (ℕ × ℕ)) (ea : List Vec) (p : ℕ × ℕ) : Vec :=
  ea.getD (edges.indexOf p) []

/-- Stacked `reps = x[tetra_nei_ids] + edge_reps` used by the GCN- and
GIN-style tetra messages. -/
def tetraRepsNode (edges : List (ℕ × ℕ)) (x ea : List Vec) (n : ℕ)
    (parity : List ℤ) : List (List Vec) :=
  ((tetraIds parity).zip (tetraResolve edges n parity)).map
    (fun p => p.2.map (fun b => vadd (x.getD b []) (edgeRep edges ea (b, p.1))))

/-- Stacked `edge_reps` alone, used by both DMPNN tetra messages. -/
def tetraEdgeReps (edges : List (ℕ × ℕ)) (ea : List Vec) (n : ℕ)
    (parity : List ℤ) : List (List Vec) :=
  ((tetraIds parity).zip (tetraResolve edges n parity)).map
    (fun p => p.2.map (fun b => edgeRep edges ea (b, p.1)))

/-- The pseudo tetra degree coefficient of `GCNConv.tetra_message`
(lines 56-59): `0.5 * mean(deg[tetra_nei_ids] ** -0.5)` over each
(pre-swap) neighbor row, with `deg = degree(col, n)` (no `+1` bias). -/
def tNorm (invSqrt : ℕ → ℚ) (edges : List (ℕ × ℕ)) (n : ℕ) (parity : List ℤ) : List ℚ :=
  (tetraNeiIds edges n (tetraIds parity)).map
    (fun nbrs =>
      (1 / 2) * (((nbrs.map (fun b => invSqrt ((degList (colIdx edges) n).getD b 0))).foldl
        (· + ·) 0) / (nbrs.length : ℚ)))

/-- The scaled tetra message of `GCNConv.tetra_message` (line 73):
`t_norm.unsqueeze(-1) * tetra_update(reps)`.  `tu` is the abstract
pluggable tetra update, mapping the stacked `(k, 4, H)` reps to `(k, H)`
outputs.  `x` here is the already-linearly-transformed node tensor, as
`GCNConv.forward` reassigns `x = self.linear(x)` before the call. -/
def gcnTetraMessage (invSqrt : ℕ → ℚ) (tu : List (List Vec) → List Vec)
    (edges : List (ℕ × ℕ)) (x ea : List Vec) (n : ℕ) (parity : List ℤ) : List Vec :=
  ((tNorm invSqrt edges n parity).zip (tu (tetraRepsNode edges x ea n parity))).map
    (fun p => smul p.1 p.2)

/-- Base aggregated message of `GCNConv.forward`: `propagate` with
message `norm[e] * relu(x[row[e]] + edge_attr[e])` (after
`x = self.linear(x)`), scatter-added at `col` into a zero accumulator. -/
def gcnBase (lin : Vec → Vec) (invSqrt : ℕ → ℚ) (H : ℕ)
    (x : List Vec) (edges : List (ℕ × ℕ)) (ea : List Vec) : List Vec :=
  let x1 := x.map lin
  let norm := gcnNorm invSqrt edges x.length
  let msgs := (List.range edges.length).map
    (fun e => smul (norm.getD e 0)
      (relu (vadd (x1.getD (edges.getD e (0, 0)).1 []) (ea.getD e []))))
  scatterAdd (List.replicate x.length (vzero H)) ((colIdx edges).zip msgs)

/-- The node message of `GCNConv.forward` after the optional tetra
overwrite (`x_new[tetra_ids] = self.tetra_message(...)`). -/
def gcnXNew (lin : Vec → Vec) (invSqrt : ℕ → ℚ) (tu : List (List Vec) → List Vec)
    (tetra : Bool) (H : ℕ) (x : List Vec) (edges : List (ℕ × ℕ)) (ea : List Vec)
    (parity : List ℤ) : List Vec :=
  let base := gcnBase lin invSqrt H x edges ea
  let tids := tetraIds parity
  if tetra ∧ tids ≠ [] then
    overwrite base tids (gcnTetraMessage invSqrt tu edges (x.map lin) ea x.length parity)
  else base

/-- Full `GCNConv.forward`: `x_new + relu(linear(x))`, batch norm
(abstract `bn`), edge features returned unchanged. -/
def gcnForward (lin : Vec → Vec) (bn : List Vec → List Vec) (invSqrt : ℕ → ℚ)
    (tu : List (List Vec) → List Vec) (tetra : Bool) (H : ℕ)
    (x : List Vec) (edges : List (ℕ × ℕ)) (ea : List Vec) (parity : List ℤ) :
    List Vec × List Vec :=
  let x1 := x.map lin
  let xnew := gcnXNew lin invSqrt tu tetra H x edges ea parity
  (bn (List.zipWith vadd xnew (x1.map relu)), ea)

/-- Base aggregated message of `GINEConv.forward`: `propagate` with
message `relu(x[row[e]] + edge_attr[e])`, scatter-added at `col`. -/
def gineBase (H : ℕ) (x : List Vec) (edges : List (ℕ × ℕ)) (ea : List Vec) : List Vec :=
  let msgs := (List.range edges.length).map
    (fun e => relu (vadd (x.getD (edges.getD e (0, 0)).1 []) (ea.getD e [])))
  scatterAdd (List.replicate x.length (vzero H)) ((colIdx edges).zip msgs)

/-- The node message of `GINEConv.forward` after the optional tetra
overwrite; `GINEConv.tetra_message` returns `tetra_update(reps)`
directly, with no scaling. -/
def gineXNew (tu : List (List Vec) → List Vec) (tetra : Bool) (H : ℕ)
    (x : List Vec) (edges : List (ℕ × ℕ)) (ea : List Vec) (parity : List ℤ) : List Vec :=
  let base := gineBase H x edges ea
  let tids := tetraIds parity
  if tetra ∧ tids ≠ [] then
    overwrite base tids (tu (tetraRepsNode edges x ea x.length parity))
  else base

/-- Full `GINEConv.forward`: `mlp((1 + eps) * x + x_new)`, batch norm,
edge features returned unchanged. -/
def gineForward (eps : ℚ) (mlp bn : List Vec → List Vec)
    (tu : List (List Vec) → List Vec) (tetra : Bool) (H : ℕ)
    (x : List Vec) (edges : List (ℕ × ℕ)) (ea : List Vec) (parity : List ℤ) :
    List Vec × List Vec :=
  let xnew := gineXNew tu tetra H x edges ea parity
  (bn (mlp (List.zipWith (fun a b => vadd (smul (1 + eps) a) b) x xnew)), ea)

/-- Reverse-edge features: `torch.flip(edge_attr.view(E//2, 2, -1),
dims=[1]).view(E, -1)` swaps the rows of each adjacent pair. -/
def swapPairs {α : Type} : List α → List α
  | a :: b :: rest => b :: a :: swapPairs rest
  | l => l

/-- Base aggregated message of `DMPNNConv.forward`: `propagate` with
message `relu(lin(edge_attr[e]))` (no node features), scatter-added at
`col` into a zero accumulator of `n` rows. -/
def dmpnnBase (lin : Vec → Vec) (H n : ℕ) (edges : List (ℕ × ℕ)) (ea : List Vec) :
    List Vec :=
  scatterAdd (List.replicate n (vzero H)) ((colIdx edges).zip (ea.map (fun a => relu (lin a))))

/-- `a_message` of `DMPNNConv.forward` after the optional tetra
overwrite; `DMPNNConv.tetra_message` returns `tetra_update(edge_reps)`
with no scaling. -/
def dmpnnMsg (lin : Vec → Vec) (tu : List (List Vec) → List Vec) (tetra : Bool)
    (H : ℕ) (x : List Vec) (edges : List (ℕ × ℕ)) (ea : List Vec)
    (parity : List ℤ) : List Vec :=
  let base := dmpnnBase lin H x.length edges ea
  let tids := tetraIds parity
  if tetra ∧ tids ≠ [] then
    overwrite base tids (tu (tetraEdgeReps edges ea x.length parity))
  else base

/-- Full `DMPNNConv.forward`: node output is the raw (possibly
tetra-overwritten) aggregated message; edge output is
`mlp(a_message[row] - rev_message)`. -/
def dmpnnForward (lin : Vec → Vec) (mlp : List Vec → List Vec)
    (tu : List (List Vec) → List Vec) (tetra : Bool) (H : ℕ)
    (x : List Vec) (edges : List (ℕ × ℕ)) (ea : List Vec) (parity : List ℤ) :
    List Vec × List Vec :=
  let a := dmpnnMsg lin tu tetra H x edges ea parity
  (a, mlp (List.zipWith (fun p r => vsub (a.getD p.1 []) r) edges (swapPairs ea)))

/-- Base aggregated message of `OrigDMPNNConv.forward`: the identity
message aggregation of edge features (`message` returns `edge_attr`). -/
def origBase (H n : ℕ) (edges : List (ℕ × ℕ)) (ea : List Vec) : List Vec :=
  scatterAdd (List.replicate n (vzero H)) ((colIdx edges).zip ea)

/-- `a_message` of `OrigDMPNNConv.forward` after the optional tetra
overwrite; the base message is the identity aggregation of edge
features. -/
def origMsg (tu : List (List Vec) → List Vec) (tetra : Bool) (H : ℕ)
    (x : List Vec) (edges : List (ℕ × ℕ)) (ea : List Vec) (parity : List ℤ) : List Vec :=
  let base := origBase H x.length edges ea
  let tids := tetraIds parity
  if tetra ∧ tids ≠ [] then
    overwrite base tids (tu (tetraEdgeReps edges ea x.length parity))
  else base

/-- Full `OrigDMPNNConv.forward`: edge output is
`relu(lin(a_message[row] - rev_message))`; with `node_agg` the edge
messages are re-aggregated and folded into the node features through
concatenation, a linear map and a relu. -/
def origForward (lin aggLin : Vec → Vec) (tu : List (List Vec) → List Vec)
    (tetra nodeAgg : Bool) (H : ℕ) (x : List Vec) (edges : List (ℕ × ℕ))
    (ea : List Vec) (parity : List ℤ) : List Vec × List Vec :=
  let a := origMsg tu tetra H x edges ea parity
  let em := List.zipWith (fun p r => relu (lin (vsub (a.getD p.1 []) r))) edges (swapPairs ea)
  let out := if nodeAgg then
      let nam := scatterAdd (List.replicate x.length (vzero H)) ((colIdx edges).zip em)
      List.zipWith (fun xv mv => relu (aggLin (xv ++ mv))) x nam
    else a
  (out, em)

/-! ### Basic list lemmas -/

lemma getD_set_self {α : Type} [Inhabited α] (l : List α) (i : ℕ) (a : α)
    (h : i < l.length) : (l.set i a).getD i default = a := by
  rw [List.getD_eq_getElem?_getD, List.getElem?_set]
  simp [h]

lemma getD_set_ne {α : Type} [Inhabited α] (l : List α) (i j : ℕ) (a : α)
    (h : i ≠ j) : (l.set i a).getD j default = l.getD j default := by
  rw [List.getD_eq_getElem?_getD, List.getElem?_set]
  simp [h, List.getD_eq_getElem?_getD]

lemma list_eq_range_map {α : Type} (l : List α) (d : α) :
    l = (List.range l.length).map (fun i => l.getD i d) := by
  apply List.ext_getElem?
  intro i
  rw [List.getElem?_map]
  by_cases h : i < l.length
  · rw [List.getElem?_range h, List.getElem?_eq_getElem h]
    simp [List.getD_eq_getElem?_getD, List.getElem?_eq_getElem h]
  · rw [List.getElem?_eq_none (by omega), List.getElem?_eq_none (by simpa using by omega)]
    rfl

lemma map_eq_range_map {α β : Type} (l : List α) (d : α) (f : α → β) :
    l.map f = (List.range l.length).map (fun i => f (l.getD i d)) := by
  conv_lhs => rw [list_eq_range_map l d]
  rw [List.map_map]
  rfl

/-! ### Scatter-add lemmas -/

lemma scatterAdd_length (l : List (ℕ × Vec)) (acc : List Vec) :
    (scatterAdd acc l).length = acc.length := by
  induction l generalizing acc with
  | nil => rfl
  | cons p rest ih => rw [scatterAdd, ih, List.length_set]

/-- Row `v` of a scatter-add is the left fold of the messages carrying
index `v`, in scan order, over the initial row. -/
lemma scatterAdd_getD (l : List (ℕ × Vec)) (acc : List Vec) (v : ℕ)
    (hv : v < acc.length) :
    (scatterAdd acc l).getD v [] =
      ((l.filter (fun p => p.1 == v)).map Prod.snd).foldl vadd (acc.getD v []) := by
  induction l generalizing acc with
  | nil => rfl
  | cons p rest ih =>
    rw [scatterAdd]
    by_cases h : p.1 = v
    · subst h
      rw [ih _ (by rw [List.length_set]; exact hv)]
      have hset : (acc.set p.1 (vadd (acc.getD p.1 []) p.2)).getD p.1 [] =
          vadd (acc.getD p.1 []) p.2 := by
        have := getD_set_self (α := Vec) acc p.1 (vadd (acc.getD p.1 []) p.2) hv
        simpa using this
      rw [hset, List.filter_cons_of_pos (by simp)]
      rfl
    · rw [ih _ (by rw [List.length_set]; exact hv)]
      have hset : (acc.set p.1 (vadd (acc.getD p.1 []) p.2)).getD v [] = acc.getD v [] := by
        have := getD_set_ne (α := Vec) acc p.1 v (vadd (acc.getD p.1 []) p.2) h
        simpa using this
      rw [hset, List.filter_cons_of_neg (by simpa using h)]

/-- Edge positions (scan order) whose destination is `v`. -/
def inEdges (edges : List (ℕ × ℕ)) (v : ℕ) : List ℕ :=
  (List.range edges.length).filter (fun e => (edges.getD e (0, 0)).2 == v)

/-- A scatter-add of per-edge messages `f e` at destinations `col`
computes, at each node `v`, the sum of `f e` over the in-edges of `v`
in scan order. -/
lemma scatterAdd_inEdges (H n : ℕ) (edges : List (ℕ × ℕ)) (f : ℕ → Vec)
    (v : ℕ) (hv : v < n) :
    (scatterAdd (List.replicate n (vzero H))
        ((colIdx edges).zip ((List.range edges.length).map f))).getD v [] =
      sumVecs H ((inEdges edges v).map f) := by
  have hcol : colIdx edges =
      (List.range edges.length).map (fun e => (edges.getD e (0, 0)).2) :=
    map_eq_range_map edges (0, 0) Prod.snd
  have hzip : (colIdx edges).zip ((List.range edges.length).map f) =
      (List.range edges.length).map (fun e => ((edges.getD e (0, 0)).2, f e)) := by
    rw [hcol, List.zip_map']
  rw [hzip, scatterAdd_getD _ _ v (by simpa using hv)]
  rw [List.filter_map, List.map_map]
  have hrepl : (List.replicate n (vzero H)).getD v [] = vzero H := by
    rw [List.getD_eq_getElem?_getD, List.getElem?_replicate]
    simp [hv]
  rw [hrepl]
  rfl

/-! ### Overwrite lemmas -/

lemma overwrite_length (ids : List ℕ) (vals : List Vec) (base : List Vec) :
    (overwrite base ids vals).length = base.length := by
  induction ids generalizing vals base with
  | nil => cases vals <;> rfl
  | cons i ids ih =>
    cases vals with
    | nil => rfl
    | cons w vals => rw [overwrite, ih, List.length_set]


lemma overwrite_getD_notmem (ids : List ℕ) (vals : List Vec) (base : List Vec)
    (v : ℕ) (hv : v ∉ ids) :
    (overwrite base ids vals).getD v [] = base.getD v [] := by
  induction ids generalizing vals base with
  | nil => cases vals <;> rfl
  | cons i ids ih =>
    cases vals with
    | nil => rfl
    | cons w vals =>
      rw [overwrite, ih _ _ (fun h => hv (List.mem_cons_of_mem _ h))]
      have : i ≠ v := fun h => hv (h ▸ List.mem_cons_self i ids)
      have := getD_set_ne (α := Vec) base i v w this
      simpa using this

lemma overwrite_getD_at (ids : List ℕ) (vals : List Vec) (base : List Vec)
    (j : ℕ) (hj : j < ids.length) (hjv : j < vals.length) (hnd : ids.Nodup)
    (hlt : ids.getD j 0 < base.length) :
    (overwrite base ids vals).getD (ids.getD j 0) [] = vals.getD j [] := by
  induction ids generalizing vals base j with
  | nil => simp at hj
  | cons i ids ih =>
    cases vals with
    | nil => simp at hjv
    | cons w vals =>
      rw [overwrite]
      cases j with
      | zero =>
        rw [List.getD_cons_zero, List.getD_cons_zero]
        have hni : i ∉ ids := (List.nodup_cons.mp hnd).1
        rw [overwrite_getD_notmem ids vals _ i hni]
        have := getD_set_self (α := Vec) base i w (by simpa using hlt)
        simpa using this
      | succ j =>
        rw [List.getD_cons_succ, List.getD_cons_succ]
        exact ih vals _ j (by simpa using hj) (by simpa using hjv)
          (List.nodup_cons.mp hnd).2 (by simpa using hlt)

/-! ### Stereocenter index-set lemmas -/

lemma mem_tetraIds (parity : List ℤ) (i : ℕ) :
    i ∈ tetraIds parity ↔ i < parity.length ∧ parity.getD i 0 ≠ 0 := by
  simp [tetraIds, List.mem_filter, List.mem_range]

lemma tetraIds_nodup (parity : List ℤ) : (tetraIds parity).Nodup :=
  (List.nodup_range parity.length).filter _

lemma tetraIds_eq_nil (parity : List ℤ) (hz : ∀ z ∈ parity, z = 0) :
    tetraIds parity = [] := by
  rw [tetraIds, List.filter_eq_nil_iff]
  intro j hj
  rw [List.mem_range] at hj
  have : parity.getD j 0 ∈ parity := by
    rw [List.getD_eq_getElem?_getD, List.getElem?_eq_getElem hj]
    exact List.getElem_mem hj
  have h0 := hz _ this
  rw [h0]
  simp

lemma tetraIds_getD_lt (parity : List ℤ) (j : ℕ) (hj : j < (tetraIds parity).length) :
    (tetraIds parity).getD j 0 < parity.length := by
  have : (tetraIds parity).getD j 0 ∈ tetraIds parity := by
    rw [List.getD_eq_getElem?_getD, List.getElem?_eq_getElem hj]
    exact List.getElem_mem hj
  exact ((mem_tetraIds parity _).mp this).1

/-- Filtering `range n` by membership in a filtered `range m` (with
`m ≤ n`) gives back that filtered list: the per-node comprehension of
`tetra_message` enumerates exactly `tetra_ids`, in the same order. -/
lemma filter_range_mem (p : ℕ → Bool) (m k : ℕ) :
    (List.range (m + k)).filter (fun i => decide (i ∈ (List.range m).filter p)) =
      (List.range m).filter p := by
  induction k with
  | zero =>
    have : (List.range m).filter (fun i => decide (i ∈ (List.range m).filter p)) =
        (List.range m).filter p := by
      apply List.filter_congr
      intro i hi
      cases hpi : p i <;> simp [List.mem_filter, hi, hpi]
    simpa using this
  | succ k ih =>
    have hsplit : List.range (m + (k + 1)) = List.range (m + k) ++ [m + k] := by
      rw [show m + (k + 1) = (m + k) + 1 by omega, List.range_succ]
    rw [hsplit, List.filter_append, ih]
    have hlast : [m + k].filter (fun i => decide (i ∈ (List.range m).filter p)) = [] := by
      simp [List.mem_filter, List.mem_range]
    rw [hlast, List.append_nil]

/-- With at least as many nodes as parity entries, the stacked
`tetra_nei_ids` rows are the in-neighbor tuples of the `tetra_ids`, in
order. -/
lemma tetraNeiIds_eq (edges : List (ℕ × ℕ)) (n : ℕ) (parity : List ℤ)
    (hn : parity.length ≤ n) :
    tetraNeiIds edges n (tetraIds parity) =
      (tetraIds parity).map (fun i => inNeighbors edges i) := by
  rw [tetraNeiIds]
  congr 1
  have := filter_range_mem (fun j => parity.getD j 0 != 0) parity.length (n - parity.length)
  rw [show parity.length + (n - parity.length) = n by omega] at this
  exact this

lemma zip_self_map {a b : Type} (l : List a) (g : a → b) :
    l.zip (l.map g) = l.map (fun i => (i, g i)) := by
  induction l with
  | nil => rfl
  | cons x xs ih => simp [ih]

/-- Row `j` of the Tetra Neighbor Resolver output: the in-neighbor
tuple of the `j`-th stereocenter in scan order, first two entries
swapped exactly when that node's parity is `-1`. -/
lemma tetraResolve_getD (edges : List (ℕ × ℕ)) (n : ℕ) (parity : List ℤ)
    (hn : parity.length ≤ n) (j : ℕ) (hj : j < (tetraIds parity).length) :
    (tetraResolve edges n parity).getD j [] =
      (if parity.getD ((tetraIds parity).getD j 0) 0 = -1
        then perm1023 (inNeighbors edges ((tetraIds parity).getD j 0))
        else inNeighbors edges ((tetraIds parity).getD j 0)) := by
  rw [tetraResolve, tetraNeiIds_eq edges n parity hn, applySwap]
  rw [zip_self_map, List.map_map, List.getD_eq_getElem?_getD, List.getElem?_map,
    List.getElem?_eq_getElem hj]
  simp [List.getD_eq_getElem?_getD, List.getElem?_eq_getElem hj]

lemma tetraResolve_length (edges : List (ℕ × ℕ)) (n : ℕ) (parity : List ℤ)
    (hn : parity.length ≤ n) :
    (tetraResolve edges n parity).length = (tetraIds parity).length := by
  rw [tetraResolve, tetraNeiIds_eq edges n parity hn, applySwap]
  simp

lemma getD_map_lt {α β : Type} (l : List α) (f : α → β) (i : ℕ) (dA : α) (dB : β)
    (h : i < l.length) : (l.map f).getD i dB = f (l.getD i dA) := by
  rw [List.getD_eq_getElem?_getD, List.getElem?_map, List.getElem?_eq_getElem h]
  simp [List.getD_eq_getElem?_getD, List.getElem?_eq_getElem h]

lemma getD_range_lt (n i : ℕ) (h : i < n) : (List.range n).getD i 0 = i := by
  rw [List.getD_eq_getElem?_getD, List.getElem?_range h]
  rfl

/-! ### Reverse-edge (pair swap) lemmas -/

lemma swapPairs_swapPairs {α : Type} : ∀ l : List α, swapPairs (swapPairs l) = l
  | [] => rfl
  | [a] => rfl
  | a :: b :: rest => by rw [swapPairs, swapPairs, swapPairs_swapPairs rest]

lemma swapPairs_getD {α : Type} :
    ∀ (l : List α) (d : α) (k : ℕ), 2 * k + 1 < l.length →
      (swapPairs l).getD (2 * k) d = l.getD (2 * k + 1) d ∧
        (swapPairs l).getD (2 * k + 1) d = l.getD (2 * k) d
  | [], _, k, h => by simp at h
  | [a], _, k, h => by simp at h
  | a :: b :: rest, d, 0, h => by simp [swapPairs]
  | a :: b :: rest, d, k + 1, h => by
    have ih := swapPairs_getD rest d k (by simp at h; omega)
    rw [swapPairs]
    have h2 : 2 * (k + 1) = 2 * k + 1 + 1 := by ring
    rw [h2]
    simpa using ih

/-! ### Concrete example graphs -/

/-- Five-node star: center `0` bonded to `1, 2, 3, 4`; each bond stored
as the adjacent directed pair `(in-edge, out-edge)`.  In-neighbor scan
order of node `0` is `[1, 2, 3, 4]`. -/
def star5 : List (ℕ × ℕ) :=
  [(1, 0), (0, 1), (2, 0), (0, 2), (3, 0), (0, 3), (4, 0), (0, 4)]

/-- The same star with the first two bonds enumerated in the other
order, giving node `0` the in-neighbor scan order `[2, 1, 3, 4]`. -/
def star5b : List (ℕ × ℕ) :=
  [(2, 0), (0, 2), (1, 0), (0, 1), (3, 0), (0, 3), (4, 0), (0, 4)]

/-! ### Claim theorems -/

/-- C1: for every graph and stereocenter (nonzero parity, 4
in-neighbors), the Tetra Neighbor Resolver returns the in-neighbor
sources in directed-edge scan order, with positions 0 and 1 swapped
exactly when the node's parity is `-1`; in particular on the 5-node
star with neighbors `[1,2,3,4]` it returns `[1,2,3,4]` under parity
`+1` and `[2,1,3,4]` under parity `-1`. -/
theorem C1_resolver_scan_order_swap :
    (∀ (edges : List (ℕ × ℕ)) (parity : List ℤ) (n j a b c d : ℕ),
        parity.length ≤ n → j < (tetraIds parity).length →
        inNeighbors edges ((tetraIds parity).getD j 0) = [a, b, c, d] →
        (tetraResolve edges n parity).getD j [] =
          (if parity.getD ((tetraIds parity).getD j 0) 0 = -1
            then [b, a, c, d] else [a, b, c, d]))
    ∧ tetraResolve star5 5 [1, 0, 0, 0, 0] = [[1, 2, 3, 4]]
    ∧ tetraResolve star5 5 [-1, 0, 0, 0, 0] = [[2, 1, 3, 4]] := by
  refine ⟨?_, by decide, by decide⟩
  intro edges parity n j a b c d hn hj hnb
  rw [tetraResolve_getD edges n parity hn j hj, hnb]
  by_cases h : parity.getD ((tetraIds parity).getD j 0) 0 = -1 <;>
    simp [h, perm1023]

/-- Witness for C1 at the concrete 5-node star with parity `-1`. -/
theorem C1_resolver_scan_order_swap_witness :
    (tetraResolve star5 5 [-1, 0, 0, 0, 0]).getD 0 [] = [2, 1, 3, 4] := by
  have h := C1_resolver_scan_order_swap.1 star5 [-1, 0, 0, 0, 0] 5 0 1 2 3 4
    (by decide) (by decide) (by decide)
  rw [if_pos (by decide)] at h
  exact h

/-- C2: negating the parity and swapping positions 0 and 1 of the
neighbor scan order are inverse operations: the resolver produces the
same resolved 4-tuple for scan order `(a,b,c,d)` with parity `+1` as
for scan order `(b,a,c,d)` with parity `-1`. -/
theorem C2_parity_swap_inverse (edges edgesB : List (ℕ × ℕ)) (parity parityB : List ℤ)
    (n i a b c d : ℕ)
    (h1 : parity.getD i 0 = 1) (h2 : parityB.getD i 0 = -1)
    (hA : inNeighbors edges i = [a, b, c, d]) (hB : inNeighbors edgesB i = [b, a, c, d])
    (ht1 : tetraIds parity = [i]) (ht2 : tetraIds parityB = [i])
    (hn1 : parity.length ≤ n) (hn2 : parityB.length ≤ n) :
    tetraResolve edges n parity = tetraResolve edgesB n parityB := by
  have lA := tetraResolve_length edges n parity hn1
  have lB := tetraResolve_length edgesB n parityB hn2
  rw [ht1] at lA
  rw [ht2] at lB
  simp only [List.length_singleton] at lA lB
  have gA := tetraResolve_getD edges n parity hn1 0 (by rw [ht1]; simp)
  have gB := tetraResolve_getD edgesB n parityB hn2 0 (by rw [ht2]; simp)
  rw [ht1] at gA
  rw [ht2] at gB
  simp only [List.getD_cons_zero] at gA gB
  rw [h1, hA] at gA
  rw [h2, hB] at gB
  rw [if_neg (by decide)] at gA
  rw [if_pos rfl] at gB
  have hres : (tetraResolve edges n parity).getD 0 [] =
      (tetraResolve edgesB n parityB).getD 0 [] := by
    rw [gA, gB]
    simp [perm1023]
  apply List.ext_getElem (by rw [lA, lB])
  intro k hk1 hk2
  have hk : k = 0 := by rw [lA] at hk1; omega
  subst hk
  have e1 : (tetraResolve edges n parity).getD 0 [] = (tetraResolve edges n parity)[0] := by
    rw [List.getD_eq_getElem?_getD, List.getElem?_eq_getElem hk1]
    rfl
  have e2 : (tetraResolve edgesB n parityB).getD 0 [] = (tetraResolve edgesB n parityB)[0] := by
    rw [List.getD_eq_getElem?_getD, List.getElem?_eq_getElem hk2]
    rfl
  rw [← e1, ← e2, hres]

/-- Witness for C2: the two concrete star graphs with the first two
bonds enumerated in opposite orders and opposite parities resolve to
the same tuple. -/
theorem C2_parity_swap_inverse_witness :
    tetraResolve star5 5 [1, 0, 0, 0, 0] = tetraResolve star5b 5 [-1, 0, 0, 0, 0] :=
  C2_parity_swap_inverse star5 star5b [1, 0, 0, 0, 0] [-1, 0, 0, 0, 0] 5 0 1 2 3 4
    (by decide) (by decide) (by decide) (by decide) (by decide) (by decide)
    (by decide) (by decide)

/-- C7: a parity value outside `{-1, 0, 1}` (such as `2`) makes the
node a stereocenter with default orientation: it is selected into
`tetra_ids` because its parity is nonzero, and its resolved tuple is
the unswapped in-neighbor scan order, since the position-0/1 swap fires
only on parity exactly `-1`; the resolver is total, raising no
validation error. -/
theorem C7_nonstandard_parity_default_orientation (parity : List ℤ)
    (edges : List (ℕ × ℕ)) (n i : ℕ) (p : ℤ)
    (hp : parity.getD i 0 = p) (h0 : p ≠ 0) (h1 : p ≠ -1)
    (hi : i < parity.length) (hn : parity.length ≤ n) :
    i ∈ tetraIds parity ∧
      ∀ j, j < (tetraIds parity).length → (tetraIds parity).getD j 0 = i →
        (tetraResolve edges n parity).getD j [] = inNeighbors edges i := by
  constructor
  · exact (mem_tetraIds parity i).mpr ⟨hi, by rw [hp]; exact h0⟩
  · intro j hj hji
    rw [tetraResolve_getD edges n parity hn j hj, hji, hp]
    rw [if_neg h1]

/-- Witness for C7: parity `2` at the star center is selected and not
swapped. -/
theorem C7_nonstandard_parity_default_orientation_witness :
    0 ∈ tetraIds [2, 0, 0, 0, 0] ∧
      (tetraResolve star5 5 [2, 0, 0, 0, 0]).getD 0 [] = inNeighbors star5 0 := by
  have h := C7_nonstandard_parity_default_orientation [2, 0, 0, 0, 0] star5 5 0 2
    (by decide) (by decide) (by decide) (by decide) (by decide)
  exact ⟨h.1, h.2 0 (by decide) (by decide)⟩

/-- C6: on an evenly sized edge-feature list laid out as adjacent
reverse pairs, the reverse-edge operation swaps the features within
each adjacent pair, and is an involution. -/
theorem C6_reverse_edge_pairs (ea : List Vec) (he : ea.length % 2 = 0) :
    (∀ k, 2 * k + 1 < ea.length →
        (swapPairs ea).getD (2 * k) [] = ea.getD (2 * k + 1) [] ∧
          (swapPairs ea).getD (2 * k + 1) [] = ea.getD (2 * k) []) ∧
      swapPairs (swapPairs ea) = ea :=
  ⟨fun k hk => swapPairs_getD ea [] k hk, swapPairs_swapPairs ea⟩

/-- Witness for C6 on a concrete 4-row edge-feature list. -/
theorem C6_reverse_edge_pairs_witness :
    (swapPairs [[(1 : ℚ)], [2], [3], [4]]).getD 0 [] = [(2 : ℚ)] ∧
      swapPairs (swapPairs [[(1 : ℚ)], [2], [3], [4]]) = [[(1 : ℚ)], [2], [3], [4]] := by
  have h := C6_reverse_edge_pairs [[(1 : ℚ)], [2], [3], [4]] (by decide)
  exact ⟨(h.1 0 (by decide)).1.trans (by decide), h.2⟩

/-- C5: the Degree Normalizer computes in-degree over `col` plus one,
applies `pow(-0.5)`, and emits per edge the product of the two endpoint
coefficients; the `+1` bias keeps every argument positive, so the power
never divides by zero even at in-degree-0 nodes. -/
theorem C5_degree_normalizer (invSqrt : ℕ → ℚ) (edges : List (ℕ × ℕ)) (n e : ℕ)
    (he : e < edges.length)
    (hr : (edges.getD e (0, 0)).1 < n) (hc : (edges.getD e (0, 0)).2 < n) :
    (gcnNorm invSqrt edges n).getD e 0 =
        invSqrt (indeg edges (edges.getD e (0, 0)).1 + 1) *
          invSqrt (indeg edges (edges.getD e (0, 0)).2 + 1) ∧
      ∀ v, v < n → 0 < (degList (colIdx edges) n).getD v 0 + 1 := by
  constructor
  · rw [gcnNorm]
    rw [getD_map_lt edges _ e (0, 0) 0 he]
    have hdis : ∀ r, r < n →
        (((degList (colIdx edges) n).map (fun d => d + 1)).map invSqrt).getD r 0 =
          invSqrt (indeg edges r + 1) := by
      intro r hrn
      rw [getD_map_lt _ invSqrt r 0 0 (by simp [degList, hrn]),
        getD_map_lt _ _ r 0 0 (by simp [degList, hrn]),
        degList, getD_map_lt _ _ r 0 0 (by simpa using hrn), getD_range_lt n r hrn]
      rfl
    rw [hdis _ hr, hdis _ hc]
  · intro v hv
    omega

/-- Witness for C5 at edge 0 of the concrete star graph. -/
theorem C5_degree_normalizer_witness :
    (gcnNorm (fun d => 1 / (d : ℚ)) star5 5).getD 0 0 =
        (1 / ((indeg star5 1 + 1 : ℕ) : ℚ)) * (1 / ((indeg star5 0 + 1 : ℕ) : ℚ)) ∧
      ∀ v, v < 5 → 0 < (degList (colIdx star5) 5).getD v 0 + 1 := by
  have h := C5_degree_normalizer (fun d => 1 / (d : ℚ)) star5 5 0
    (by decide) (by decide) (by decide)
  exact ⟨h.1.trans (by norm_num [star5]), h.2⟩

/-- C4: on an all-zero parity vector, every layer variant's forward
with stereochemistry-awareness enabled equals the same forward with the
tetra-correction step skipped entirely (same learned parameters): the
tetra overwrite has zero blast radius outside nonzero-parity rows. -/
theorem C4_zero_parity_identity (lin linD linO aggLinO : Vec → Vec)
    (bn mlpI bnI mlpD : List Vec → List Vec) (invSqrt : ℕ → ℚ) (eps : ℚ)
    (tuG tuI tuD tuO : List (List Vec) → List Vec) (nodeAgg : Bool) (H : ℕ)
    (x : List Vec) (edges : List (ℕ × ℕ)) (ea : List Vec) (parity : List ℤ)
    (hz : ∀ z ∈ parity, z = 0) :
    gcnForward lin bn invSqrt tuG true H x edges ea parity =
        gcnForward lin bn invSqrt tuG false H x edges ea parity ∧
      gineForward eps mlpI bnI tuI true H x edges ea parity =
        gineForward eps mlpI bnI tuI false H x edges ea parity ∧
      dmpnnForward linD mlpD tuD true H x edges ea parity =
        dmpnnForward linD mlpD tuD false H x edges ea parity ∧
      origForward linO aggLinO tuO true nodeAgg H x edges ea parity =
        origForward linO aggLinO tuO false nodeAgg H x edges ea parity := by
  have ht := tetraIds_eq_nil parity hz
  refine ⟨?_, ?_, ?_, ?_⟩
  · simp [gcnForward, gcnXNew, ht]
  · simp [gineForward, gineXNew, ht]
  · simp [dmpnnForward, dmpnnMsg, ht]
  · simp [origForward, origMsg, ht]

/-- Witness for C4 on a concrete zero-parity input. -/
theorem C4_zero_parity_identity_witness :
    gcnForward id id (fun _ => 1) (fun _ => []) true 1
        [[(1 : ℚ)], [2]] [(0, 1), (1, 0)] [[(1 : ℚ)], [1]] [0, 0] =
      gcnForward id id (fun _ => 1) (fun _ => []) false 1
        [[(1 : ℚ)], [2]] [(0, 1), (1, 0)] [[(1 : ℚ)], [1]] [0, 0] :=
  (C4_zero_parity_identity id id id id id id id id (fun _ => 1) 0
    (fun _ => []) (fun _ => []) (fun _ => []) (fun _ => []) false 1
    [[(1 : ℚ)], [2]] [(0, 1), (1, 0)] [[(1 : ℚ)], [1]] [0, 0]
    (by decide)).1

lemma gcnBase_length (lin : Vec → Vec) (invSqrt : ℕ → ℚ) (H : ℕ)
    (x : List Vec) (edges : List (ℕ × ℕ)) (ea : List Vec) :
    (gcnBase lin invSqrt H x edges ea).length = x.length := by
  simp [gcnBase, scatterAdd_length]

lemma gineBase_length (H : ℕ) (x : List Vec) (edges : List (ℕ × ℕ)) (ea : List Vec) :
    (gineBase H x edges ea).length = x.length := by
  simp [gineBase, scatterAdd_length]

lemma dmpnnBase_length (lin : Vec → Vec) (H n : ℕ) (edges : List (ℕ × ℕ)) (ea : List Vec) :
    (dmpnnBase lin H n edges ea).length = n := by
  simp [dmpnnBase, scatterAdd_length]

lemma origBase_length (H n : ℕ) (edges : List (ℕ × ℕ)) (ea : List Vec) :
    (origBase H n edges ea).length = n := by
  simp [origBase, scatterAdd_length]

lemma tNorm_length (invSqrt : ℕ → ℚ) (edges : List (ℕ × ℕ)) (n : ℕ)
    (parity : List ℤ) (hn : parity.length ≤ n) :
    (tNorm invSqrt edges n parity).length = (tetraIds parity).length := by
  rw [tNorm, tetraNeiIds_eq edges n parity hn]
  simp

/-- C3 (amended): with stereochemistry-awareness on and stereocenters
present, each variant's aggregated message rows at exactly the
stereocenter indices are fully replaced (not added to) by that
variant's tetra message — the Tetra Update output unmodified for the
GIN-style and both DMPNN variants, and scaled by `t_norm` for the
GCN-style variant — while every other row keeps its base value. -/
theorem C3_stereo_rows_replaced (lin linD : Vec → Vec) (invSqrt : ℕ → ℚ)
    (tuG tuI tuD tuO : List (List Vec) → List Vec) (H : ℕ)
    (x : List Vec) (edges : List (ℕ × ℕ)) (ea : List Vec) (parity : List ℤ)
    (j : ℕ) (hpx : parity.length ≤ x.length)
    (hj : j < (tetraIds parity).length)
    (hG : j < (gcnTetraMessage invSqrt tuG edges (x.map lin) ea x.length parity).length)
    (hI : j < (tuI (tetraRepsNode edges x ea x.length parity)).length)
    (hD : j < (tuD (tetraEdgeReps edges ea x.length parity)).length)
    (hO : j < (tuO (tetraEdgeReps edges ea x.length parity)).length) :
    ((gcnXNew lin invSqrt tuG true H x edges ea parity).getD
          ((tetraIds parity).getD j 0) [] =
        (gcnTetraMessage invSqrt tuG edges (x.map lin) ea x.length parity).getD j [] ∧
      (gineXNew tuI true H x edges ea parity).getD ((tetraIds parity).getD j 0) [] =
        (tuI (tetraRepsNode edges x ea x.length parity)).getD j [] ∧
      (dmpnnMsg linD tuD true H x edges ea parity).getD ((tetraIds parity).getD j 0) [] =
        (tuD (tetraEdgeReps edges ea x.length parity)).getD j [] ∧
      (origMsg tuO true H x edges ea parity).getD ((tetraIds parity).getD j 0) [] =
        (tuO (tetraEdgeReps edges ea x.length parity)).getD j []) ∧
    ∀ v, v < x.length → v ∉ tetraIds parity →
      (gcnXNew lin invSqrt tuG true H x edges ea parity).getD v [] =
          (gcnBase lin invSqrt H x edges ea).getD v [] ∧
        (gineXNew tuI true H x edges ea parity).getD v [] =
          (gineBase H x edges ea).getD v [] ∧
        (dmpnnMsg linD tuD true H x edges ea parity).getD v [] =
          (dmpnnBase linD H x.length edges ea).getD v [] ∧
        (origMsg tuO true H x edges ea parity).getD v [] =
          (origBase H x.length edges ea).getD v [] := by
  have hne : tetraIds parity ≠ [] := by
    intro h
    rw [h] at hj
    simp at hj
  have hnd := tetraIds_nodup parity
  have hlt : (tetraIds parity).getD j 0 < x.length :=
    lt_of_lt_of_le (tetraIds_getD_lt parity j hj) hpx
  constructor
  · refine ⟨?_, ?_, ?_, ?_⟩
    · rw [gcnXNew, if_pos ⟨rfl, hne⟩]
      exact overwrite_getD_at _ _ _ j hj hG hnd (by rw [gcnBase_length]; exact hlt)
    · rw [gineXNew, if_pos ⟨rfl, hne⟩]
      exact overwrite_getD_at _ _ _ j hj hI hnd (by rw [gineBase_length]; exact hlt)
    · rw [dmpnnMsg, if_pos ⟨rfl, hne⟩]
      exact overwrite_getD_at _ _ _ j hj hD hnd (by rw [dmpnnBase_length]; exact hlt)
    · rw [origMsg, if_pos ⟨rfl, hne⟩]
      exact overwrite_getD_at _ _ _ j hj hO hnd (by rw [origBase_length]; exact hlt)
  · intro v _ hv
    refine ⟨?_, ?_, ?_, ?_⟩
    · rw [gcnXNew, if_pos ⟨rfl, hne⟩]
      exact overwrite_getD_notmem _ _ _ v hv
    · rw [gineXNew, if_pos ⟨rfl, hne⟩]
      exact overwrite_getD_notmem _ _ _ v hv
    · rw [dmpnnMsg, if_pos ⟨rfl, hne⟩]
      exact overwrite_getD_notmem _ _ _ v hv
    · rw [origMsg, if_pos ⟨rfl, hne⟩]
      exact overwrite_getD_notmem _ _ _ v hv

/-- Witness for the amended C3 on the concrete star graph: the GIN-style
row at the stereocenter equals the (constant) tetra update's output. -/
theorem C3_stereo_rows_replaced_witness :
    (gineXNew (fun (reps : List (List Vec)) => reps.map (fun _ => [1])) true 1
        (List.replicate 5 [1]) star5 (List.replicate 8 [1]) [1, 0, 0, 0, 0]).getD 0 [] =
      ((fun (reps : List (List Vec)) => reps.map (fun _ => ([1] : Vec)))
        (tetraRepsNode star5 (List.replicate 5 [1]) (List.replicate 8 [1]) 5
          [1, 0, 0, 0, 0])).getD 0 [] := by
  have h := C3_stereo_rows_replaced id id (fun _ => 1)
    (fun (reps : List (List Vec)) => reps.map (fun _ => [1])) (fun (reps : List (List Vec)) => reps.map (fun _ => [1]))
    (fun (reps : List (List Vec)) => reps.map (fun _ => [1])) (fun (reps : List (List Vec)) => reps.map (fun _ => [1])) 1
    (List.replicate 5 [1]) star5 (List.replicate 8 [1]) [1, 0, 0, 0, 0] 0
    (by decide) (by decide) (by decide) (by decide) (by decide) (by decide)
  exact h.1.2.1

/-- Counterexample to C3 as stated: in the GCN-style variant the row
written at the stereocenter is the Tetra Update output scaled by
`t_norm` (here `1/2`), not the Tetra Update output itself. -/
theorem C3_counterexample :
    (gcnXNew id (fun _ => 1) (fun (reps : List (List Vec)) => reps.map (fun _ => [1])) true 1
        (List.replicate 5 [1]) star5 (List.replicate 8 [1]) [1, 0, 0, 0, 0]).getD 0 [] ≠
      ((fun (reps : List (List Vec)) => reps.map (fun _ => ([1] : Vec)))
        (tetraRepsNode star5 ((List.replicate 5 [1]).map id) (List.replicate 8 [1]) 5
          [1, 0, 0, 0, 0])).getD 0 [] := by
  have h1 : (gcnXNew id (fun _ => 1) (fun (reps : List (List Vec)) => reps.map (fun _ => [1]))
      true 1 (List.replicate 5 [1]) star5 (List.replicate 8 [1]) [1, 0, 0, 0, 0]).getD
        ((tetraIds [1, 0, 0, 0, 0]).getD 0 0) [] =
      [((1 : ℚ) / 2 * ((0 + 1 + 1 + 1 + 1) / ((4 : ℕ) : ℚ))) * 1] := by
    rw [gcnXNew, if_pos ⟨rfl, by decide⟩]
    rw [overwrite_getD_at _ _ _ 0 (by decide) (by decide) (by decide) (by decide)]
    rfl
  have h0 : (tetraIds [1, 0, 0, 0, 0]).getD 0 0 = 0 := by decide
  rw [h0] at h1
  have h2 : ((fun (reps : List (List Vec)) => reps.map (fun _ => ([1] : Vec)))
      (tetraRepsNode star5 ((List.replicate 5 [1]).map id) (List.replicate 8 [1]) 5
        [1, 0, 0, 0, 0])).getD 0 [] = [(1 : ℚ)] := rfl
  rw [h1, h2]
  intro hEq
  have := List.head_eq_of_cons_eq hEq
  norm_num at this

lemma getD_zip {α β : Type} (l1 : List α) (l2 : List β) (j : ℕ) (d1 : α) (d2 : β)
    (h1 : j < l1.length) (h2 : j < l2.length) :
    (l1.zip l2).getD j (d1, d2) = (l1.getD j d1, l2.getD j d2) := by
  have hz : j < (l1.zip l2).length := by rw [List.length_zip]; omega
  rw [List.getD_eq_getElem?_getD, List.getElem?_eq_getElem hz]
  rw [List.getElem_zip]
  simp [List.getD_eq_getElem?_getD, List.getElem?_eq_getElem h1, List.getElem?_eq_getElem h2]

lemma getD_zipWith {α β γ : Type} (f : α → β → γ) (l1 : List α) (l2 : List β)
    (j : ℕ) (d1 : α) (d2 : β) (dg : γ) (h1 : j < l1.length) (h2 : j < l2.length) :
    (List.zipWith f l1 l2).getD j dg = f (l1.getD j d1) (l2.getD j d2) := by
  have hz : j < (List.zipWith f l1 l2).length := by rw [List.length_zipWith]; omega
  rw [List.getD_eq_getElem?_getD, List.getElem?_eq_getElem hz]
  rw [List.getElem_zipWith]
  simp [List.getD_eq_getElem?_getD, List.getElem?_eq_getElem h1, List.getElem?_eq_getElem h2]

lemma swapPairs_length {α : Type} : ∀ l : List α, (swapPairs l).length = l.length
  | [] => rfl
  | [_] => rfl
  | _ :: _ :: rest => by rw [swapPairs]; simp [swapPairs_length rest]

/-- C8: the GCN-style forward computes its base message per node as the
degree-normalized sum over in-edges of `norm[e] * relu(linear(x)[row[e]]
+ edge_attr[e])`, combines the (possibly tetra-corrected) aggregated
message as `aggregated + relu(linear(x))`, applies batch normalization
for the node output, and returns the input edge features unchanged. -/
theorem C8_gcn_forward_structure (lin : Vec → Vec) (bn : List Vec → List Vec)
    (invSqrt : ℕ → ℚ) (tuG : List (List Vec) → List Vec) (tetra : Bool) (H : ℕ)
    (x : List Vec) (edges : List (ℕ × ℕ)) (ea : List Vec) (parity : List ℤ) :
    (∀ v, v < x.length →
        (gcnBase lin invSqrt H x edges ea).getD v [] =
          sumVecs H ((inEdges edges v).map (fun e =>
            smul ((gcnNorm invSqrt edges x.length).getD e 0)
              (relu (vadd ((x.map lin).getD (edges.getD e (0, 0)).1 [])
                (ea.getD e [])))))) ∧
      (gcnForward lin bn invSqrt tuG tetra H x edges ea parity).1 =
        bn (List.zipWith vadd (gcnXNew lin invSqrt tuG tetra H x edges ea parity)
          ((x.map lin).map relu)) ∧
      (gcnForward lin bn invSqrt tuG tetra H x edges ea parity).2 = ea := by
  refine ⟨?_, rfl, rfl⟩
  intro v hv
  simp only [gcnBase]
  exact scatterAdd_inEdges H x.length edges _ v hv

/-- Witness for C8 on the concrete star graph. -/
theorem C8_gcn_forward_structure_witness :
    (gcnBase id (fun d => 1 / (d : ℚ)) 1 (List.replicate 5 [1]) star5
        (List.replicate 8 [1])).getD 0 [] =
      sumVecs 1 ((inEdges star5 0).map (fun e =>
        smul ((gcnNorm (fun d => 1 / (d : ℚ)) star5 (List.replicate 5 [1]).length).getD e 0)
          (relu (vadd (((List.replicate 5 [1]).map id).getD (star5.getD e (0, 0)).1 [])
            ((List.replicate 8 [1]).getD e []))))) :=
  (C8_gcn_forward_structure id id (fun d => 1 / (d : ℚ)) (fun _ => []) true 1
    (List.replicate 5 [1]) star5 (List.replicate 8 [1]) [0, 0, 0, 0, 0]).1 0 (by decide)

/-- C9: DMPNN variant A computes its base per-node message as the sum
over in-edges of `relu(lin(edge_attr[e]))` (no node features); its node
output is the raw aggregated message after the tetra overwrite, with no
residual or normalization; its edge output is
`mlp(message[row[e]] - reverse(edge_attr)[e])` per directed edge. -/
theorem C9_dmpnn_variant_a (lin : Vec → Vec) (mlp : List Vec → List Vec)
    (tuD : List (List Vec) → List Vec) (tetra : Bool) (H : ℕ)
    (x : List Vec) (edges : List (ℕ × ℕ)) (ea : List Vec) (parity : List ℤ)
    (hEA : ea.length = edges.length) :
    (∀ v, v < x.length →
        (dmpnnBase lin H x.length edges ea).getD v [] =
          sumVecs H ((inEdges edges v).map (fun e => relu (lin (ea.getD e []))))) ∧
      (dmpnnForward lin mlp tuD tetra H x edges ea parity).1 =
        dmpnnMsg lin tuD tetra H x edges ea parity ∧
      (dmpnnForward lin mlp tuD tetra H x edges ea parity).2 =
        mlp (List.zipWith
          (fun p r => vsub ((dmpnnMsg lin tuD tetra H x edges ea parity).getD p.1 []) r)
          edges (swapPairs ea)) ∧
      ∀ e, e < edges.length →
        (List.zipWith
            (fun p r => vsub ((dmpnnMsg lin tuD tetra H x edges ea parity).getD p.1 []) r)
            edges (swapPairs ea)).getD e [] =
          vsub ((dmpnnMsg lin tuD tetra H x edges ea parity).getD (edges.getD e (0, 0)).1 [])
            ((swapPairs ea).getD e []) := by
  refine ⟨?_, rfl, rfl, ?_⟩
  · intro v hv
    simp only [dmpnnBase]
    have hmap : ea.map (fun a => relu (lin a)) =
        (List.range edges.length).map (fun e => relu (lin (ea.getD e []))) := by
      rw [map_eq_range_map ea [] (fun a => relu (lin a)), hEA]
    rw [hmap]
    exact scatterAdd_inEdges H x.length edges _ v hv
  · intro e he
    exact getD_zipWith _ edges (swapPairs ea) e (0, 0) [] [] he
      (by rw [swapPairs_length, hEA]; exact he)

/-- Witness for C9 on the concrete star graph. -/
theorem C9_dmpnn_variant_a_witness :
    (dmpnnBase id 1 5 star5 (List.replicate 8 [1])).getD 0 [] =
      sumVecs 1 ((inEdges star5 0).map (fun e =>
        relu (id ((List.replicate 8 [1]).getD e [])))) := by
  have h := C9_dmpnn_variant_a id id (fun _ => []) true 1
    (List.replicate 5 [1]) star5 (List.replicate 8 [1]) [0, 0, 0, 0, 0] (by decide)
  exact h.1 0 (by decide)

lemma degList_getD_indeg (edges : List (ℕ × ℕ)) (n v : ℕ) (hv : v < n) :
    (degList (colIdx edges) n).getD v 0 = indeg edges v := by
  rw [degList, getD_map_lt _ _ v 0 0 (by simpa using hv), getD_range_lt n v hv]
  rfl

/-- C10: the value written at each stereocenter row by the GCN-style
variant is the Tetra Update output scaled by
`t_norm = 0.5 * mean(deg ** -0.5)` over the 4 resolved neighbors, where
`deg` is each neighbor's in-degree over `col` without the `+1` bias of
the Degree Normalizer; the GIN-style and both DMPNN variants write the
Tetra Update output unscaled. -/
theorem C10_gcn_tnorm_scaling (invSqrt : ℕ → ℚ) (linD : Vec → Vec)
    (tuG tuI tuD tuO : List (List Vec) → List Vec) (H : ℕ)
    (x : List Vec) (edges : List (ℕ × ℕ)) (ea : List Vec) (parity : List ℤ)
    (j a b c d : ℕ) (hpx : parity.length ≤ x.length)
    (hj : j < (tetraIds parity).length)
    (hnb : inNeighbors edges ((tetraIds parity).getD j 0) = [a, b, c, d])
    (ha : a < x.length) (hb : b < x.length) (hc : c < x.length) (hd : d < x.length)
    (hG : j < (tuG (tetraRepsNode edges x ea x.length parity)).length)
    (hI : j < (tuI (tetraRepsNode edges x ea x.length parity)).length)
    (hD : j < (tuD (tetraEdgeReps edges ea x.length parity)).length)
    (hO : j < (tuO (tetraEdgeReps edges ea x.length parity)).length) :
    (gcnTetraMessage invSqrt tuG edges x ea x.length parity).getD j [] =
        smul ((1 / 2) * ((invSqrt (indeg edges a) + invSqrt (indeg edges b) +
            invSqrt (indeg edges c) + invSqrt (indeg edges d)) / 4))
          ((tuG (tetraRepsNode edges x ea x.length parity)).getD j []) ∧
      (gineXNew tuI true H x edges ea parity).getD ((tetraIds parity).getD j 0) [] =
        (tuI (tetraRepsNode edges x ea x.length parity)).getD j [] ∧
      (dmpnnMsg linD tuD true H x edges ea parity).getD ((tetraIds parity).getD j 0) [] =
        (tuD (tetraEdgeReps edges ea x.length parity)).getD j [] ∧
      (origMsg tuO true H x edges ea parity).getD ((tetraIds parity).getD j 0) [] =
        (tuO (tetraEdgeReps edges ea x.length parity)).getD j [] := by
  have hne : tetraIds parity ≠ [] := by
    intro h
    rw [h] at hj
    simp at hj
  have hnd := tetraIds_nodup parity
  have hlt : (tetraIds parity).getD j 0 < x.length :=
    lt_of_lt_of_le (tetraIds_getD_lt parity j hj) hpx
  refine ⟨?_, ?_, ?_, ?_⟩
  · rw [gcnTetraMessage]
    have htn : (tNorm invSqrt edges x.length parity).length = (tetraIds parity).length :=
      tNorm_length invSqrt edges x.length parity hpx
    have hzlen : j < ((tNorm invSqrt edges x.length parity).zip
        (tuG (tetraRepsNode edges x ea x.length parity))).length := by
      rw [List.length_zip]
      omega
    rw [getD_map_lt _ _ j (0, []) [] hzlen]
    rw [getD_zip _ _ j 0 [] (by omega) hG]
    congr 1
    rw [tNorm, tetraNeiIds_eq edges x.length parity hpx, List.map_map]
    rw [getD_map_lt _ _ j 0 0 (by simpa using hj)]
    simp only [Function.comp]
    rw [hnb]
    simp only [List.map_cons, List.map_nil, List.foldl_cons, List.foldl_nil,
      List.length_cons, List.length_nil]
    rw [degList_getD_indeg edges _ a ha, degList_getD_indeg edges _ b hb,
      degList_getD_indeg edges _ c hc, degList_getD_indeg edges _ d hd]
    push_cast
    ring
  · rw [gineXNew, if_pos ⟨rfl, hne⟩]
    exact overwrite_getD_at _ _ _ j hj hI hnd (by rw [gineBase_length]; exact hlt)
  · rw [dmpnnMsg, if_pos ⟨rfl, hne⟩]
    exact overwrite_getD_at _ _ _ j hj hD hnd (by rw [dmpnnBase_length]; exact hlt)
  · rw [origMsg, if_pos ⟨rfl, hne⟩]
    exact overwrite_getD_at _ _ _ j hj hO hnd (by rw [origBase_length]; exact hlt)

/-- Witness for C10 on the concrete star graph: the stereocenter's GCN
tetra message is the update output scaled by the unbiased-degree
coefficient. -/
theorem C10_gcn_tnorm_scaling_witness :
    (gcnTetraMessage (fun d => 1 / (d : ℚ))
        (fun (reps : List (List Vec)) => reps.map (fun _ => [1])) star5
        (List.replicate 5 [1]) (List.replicate 8 [1]) 5 [1, 0, 0, 0, 0]).getD 0 [] =
      smul ((1 / 2) * ((1 / ((indeg star5 1 : ℕ) : ℚ) + 1 / ((indeg star5 2 : ℕ) : ℚ) +
          1 / ((indeg star5 3 : ℕ) : ℚ) + 1 / ((indeg star5 4 : ℕ) : ℚ)) / 4))
        (((fun (reps : List (List Vec)) => reps.map (fun _ => ([1] : Vec)))
          (tetraRepsNode star5 (List.replicate 5 [1]) (List.replicate 8 [1]) 5
            [1, 0, 0, 0, 0])).getD 0 []) :=
  (C10_gcn_tnorm_scaling (fun d => 1 / (d : ℚ)) id
    (fun (reps : List (List Vec)) => reps.map (fun _ => [1]))
    (fun (reps : List (List Vec)) => reps.map (fun _ => [1]))
    (fun (reps : List (List Vec)) => reps.map (fun _ => [1]))
    (fun (reps : List (List Vec)) => reps.map (fun _ => [1])) 1
    (List.replicate 5 [1]) star5 (List.replicate 8 [1]) [1, 0, 0, 0, 0]
    0 1 2 3 4 (by decide) (by decide) (by decide) (by decide) (by decide)
    (by decide) (by decide) (by decide) (by decide) (by decide) (by decide)).1

end Stereonet
